import Mathlib

set_option maxRecDepth 100000

/-!
Verification of the `util` package of go-nebulas: the `Uint128` type
(`src/util/uint128.go`), a 128-bit bounded unsigned integer wrapping Go's
`math/big.Int`, with validation, a fixed 16-byte big-endian codec, a decimal
string codec, and checked arithmetic.

The embedding is value-level: a Go `*big.Int` is modelled as a Lean `Int`.
Methods that mutate their receiver are modelled as state-passing functions; a
small heap model (`Store`) captures pointer aliasing for the frame claims.
-/

namespace Util

/-- The four error sentinels of `uint128.go` (`ErrUint128Overflow`,
`ErrUint128Underflow`, `ErrUint128InvalidBytesSize`,
`ErrUint128InvalidString`). -/
inductive Uint128Error where
  | overflow
  | underflow
  | invalidBytesSize
  | invalidString
deriving DecidableEq, Repr

/-- `Uint128Bytes = 16`: the number of bytes of the fixed-size encoding. -/
def Uint128Bytes : Nat := 16

/-- `Uint128Bits = 128`: the number of bits of the type. -/
def Uint128Bits : Nat := 128

/-- Fuel-driven helper for `bitLen`: structural recursion on `fuel`, computing
the bit length of `n` (number of binary digits of `n`, 0 for 0), matching Go's
`big.Int.BitLen` on the absolute value.  The fuel is an upper bound on `n`,
which guarantees the recursion bottoms out. -/
def bitLenAux : Nat → Nat → Nat
  | 0, _ => 0
  | fuel + 1, n => if n = 0 then 0 else bitLenAux fuel (n / 2) + 1

/-- `big.Int.BitLen` of a non-negative integer: the length of its absolute
value in bits (0 for value 0). -/
def bitLen (n : Nat) : Nat := bitLenAux n n

/-- `(u *Uint128) Validate()`: `ErrUint128Underflow` if `u.Sign() < 0`,
`ErrUint128Overflow` if `u.BitLen() > Uint128Bits`, otherwise no error
(`none`).  `big.Int.Sign() < 0` is exactly `u < 0`, and `BitLen` is taken of
the absolute value. -/
def Validate (u : Int) : Option Uint128Error :=
  if u < 0 then some .underflow
  else if Uint128Bits < bitLen u.natAbs then some .overflow
  else none

/-- `NewUint128()`: fresh value 0. -/
def NewUint128 : Int := 0

/-- `NewUint128FromBigInt`: wrap the given integer, then `Validate`. -/
def NewUint128FromBigInt (i : Int) : Except Uint128Error Int :=
  match Validate i with
  | some e => .error e
  | none => .ok i

/-- `NewUint128FromInt`: wrap a signed 64-bit value, then `Validate` (the
value domain is a subset of `Int`; the check is the same). -/
def NewUint128FromInt (i : Int) : Except Uint128Error Int :=
  match Validate i with
  | some e => .error e
  | none => .ok i

section BitLenLemmas

theorem bitLenAux_le (fuel n k : Nat) (hn : n ≤ fuel) :
    bitLenAux fuel n ≤ k ↔ n < 2 ^ k := by
  induction fuel generalizing n k with
  | zero =>
    obtain rfl : n = 0 := Nat.le_zero.mp hn
    simp [bitLenAux]
  | succ fuel ih =>
    by_cases h0 : n = 0
    · subst h0
      simp [bitLenAux]
    · have hrec : n / 2 ≤ fuel := by
        have : n / 2 < n := Nat.div_lt_self (Nat.pos_of_ne_zero h0) (by omega)
        omega
      rw [show bitLenAux (fuel + 1) n = bitLenAux fuel (n / 2) + 1 from by
        simp [bitLenAux, h0]]
      cases k with
      | zero =>
        simp only [Nat.pow_zero]
        omega
      | succ k =>
        rw [Nat.succ_le_succ_iff, ih (n / 2) k hrec, pow_succ]
        omega

theorem bitLen_le (n k : Nat) : bitLen n ≤ k ↔ n < 2 ^ k :=
  bitLenAux_le n n k le_rfl

theorem natAbs_lt_two_pow_128 {u : Int} (h0 : 0 ≤ u) (h1 : u < 2 ^ 128) :
    u.natAbs < 2 ^ 128 := by
  have h2 : ((2 ^ 128 : Nat) : Int) = (2 ^ 128 : Int) := by push_cast
  omega

theorem two_pow_128_le_natAbs {u : Int} (h1 : (2 : Int) ^ 128 ≤ u) :
    2 ^ 128 ≤ u.natAbs := by
  have h2 : ((2 ^ 128 : Nat) : Int) = (2 ^ 128 : Int) := by push_cast
  omega

theorem Validate_neg {u : Int} (h : u < 0) : Validate u = some .underflow := by
  unfold Validate
  rw [if_pos h]

theorem Validate_big {u : Int} (h1 : (2 : Int) ^ 128 ≤ u) :
    Validate u = some .overflow := by
  have hb : ¬ bitLen u.natAbs ≤ 128 := fun hle =>
    absurd ((bitLen_le _ _).mp hle) (by have := two_pow_128_le_natAbs h1; omega)
  unfold Validate
  rw [if_neg (by omega), if_pos (by simp only [Uint128Bits]; omega)]

theorem Validate_ok {u : Int} (h0 : 0 ≤ u) (h1 : u < 2 ^ 128) : Validate u = none := by
  have hb : bitLen u.natAbs ≤ 128 := (bitLen_le _ _).mpr (natAbs_lt_two_pow_128 h0 h1)
  unfold Validate
  rw [if_neg (by omega), if_neg (by simp only [Uint128Bits]; omega)]

theorem Validate_eq_none (u : Int) : Validate u = none ↔ 0 ≤ u ∧ u < 2 ^ 128 := by
  constructor
  · intro h
    by_cases hneg : u < 0
    · rw [Validate_neg hneg] at h; cases h
    · by_cases hbig : (2 : Int) ^ 128 ≤ u
      · rw [Validate_big hbig] at h; cases h
      · exact ⟨by omega, by omega⟩
  · intro ⟨h0, h1⟩
    exact Validate_ok h0 h1

end BitLenLemmas

/-- Fuel-driven helper for `natToBEBytes`: structural recursion on `fuel`,
producing the minimal big-endian base-256 digits of `n` (empty for 0),
matching Go's `big.Int.Bytes()` on a non-negative value.  The fuel is an
upper bound on `n`. -/
def natToBEBytesAux : Nat → Nat → List Nat
  | 0, _ => []
  | fuel + 1, n => if n = 0 then [] else natToBEBytesAux fuel (n / 256) ++ [n % 256]

/-- `big.Int.Bytes()` of a non-negative value: its absolute value as a
big-endian byte slice with no leading zero bytes (empty for value 0). -/
def natToBEBytes (n : Nat) : List Nat := natToBEBytesAux n n

/-- `big.Int.SetBytes`: interpret a byte slice as a big-endian unsigned
integer. -/
def beBytesToNat (l : List Nat) : Nat := l.foldl (fun acc b => acc * 256 + b) 0

/-- `(u *Uint128) ToFixedSizeBytes()`: validate the receiver (returning the
error and no encoding on failure), then place `u.Bytes()` at the right end of
a zeroed 16-byte array: `copy(res[idx:], bs)` with `idx = 16 - len(bs)`,
guarded by `l == 0` (keep the zero array) and `idx < 16` (`copy` writes at
most `16 - idx` bytes). -/
def ToFixedSizeBytes (u : Int) : Except Uint128Error (List Nat) :=
  match Validate u with
  | some e => .error e
  | none =>
    let bs := natToBEBytes u.natAbs
    let l := bs.length
    if l = 0 then .ok (List.replicate Uint128Bytes 0)
    else
      let idx := Uint128Bytes - l
      if idx < Uint128Bytes then
        .ok (List.replicate idx 0 ++ bs.take (Uint128Bytes - idx))
      else .ok (List.replicate Uint128Bytes 0)

/-- `(u *Uint128) ToFixedSizeByteSlice()`: `ToFixedSizeBytes` viewed as a
slice. -/
def ToFixedSizeByteSlice (u : Int) : Except Uint128Error (List Nat) :=
  ToFixedSizeBytes u

/-- `(u *Uint128) FromFixedSizeByteSlice(bytes []byte)` (value level):
reject any slice whose length is not 16 with `ErrUint128InvalidBytesSize`;
otherwise skip leading zero bytes (`for i ...; if bytes[i] != 0 break`) and
`SetBytes(bytes[i:])` when some byte is non-zero, else `SetUint64(0)`.
Returns the receiver's new value. -/
def FromFixedSizeByteSlice (bytes : List Nat) : Except Uint128Error Int :=
  if bytes.length ≠ Uint128Bytes then .error .invalidBytesSize
  else
    let rest := bytes.dropWhile (· == 0)
    if 0 < rest.length then .ok (beBytesToNat rest) else .ok 0

/-- A Go `[16]byte` array: a byte list whose length is statically 16. -/
structure Bytes16 where
  data : List Nat
  size_eq : data.length = 16

/-- `(u *Uint128) FromFixedSizeBytes(bytes [16]byte)`: calls
`FromFixedSizeByteSlice(bytes[:])` on the receiver discarding the error, and
returns the receiver; the result is the receiver's new stored value (the old
value if the inner call failed, which cannot happen at length 16). -/
def FromFixedSizeBytes (u : Int) (bytes : Bytes16) : Int :=
  match FromFixedSizeByteSlice bytes.data with
  | .ok v => v
  | .error _ => u

/-- `NewUint128FromFixedSizeBytes(bytes [16]byte)`: decode into a fresh
zero-valued receiver. -/
def NewUint128FromFixedSizeBytes (bytes : Bytes16) : Int :=
  FromFixedSizeBytes NewUint128 bytes

/-- `NewUint128FromFixedSizeByteSlice(bytes []byte)`: decode into a fresh
zero-valued receiver, propagating the error. -/
def NewUint128FromFixedSizeByteSlice (bytes : List Nat) : Except Uint128Error Int :=
  FromFixedSizeByteSlice bytes

section ByteLemmas

theorem beBytesToNat_append_single (l : List Nat) (b : Nat) :
    beBytesToNat (l ++ [b]) = beBytesToNat l * 256 + b := by
  simp [beBytesToNat, List.foldl_append]

theorem beBytesToNat_cons_zero (l : List Nat) :
    beBytesToNat (0 :: l) = beBytesToNat l := by
  simp [beBytesToNat]

theorem beBytesToNat_replicate_zero (k : Nat) (l : List Nat) :
    beBytesToNat (List.replicate k 0 ++ l) = beBytesToNat l := by
  induction k with
  | zero => simp
  | succ k ih =>
    rw [List.replicate_succ, List.cons_append, beBytesToNat_cons_zero, ih]

theorem beBytesToNat_dropWhile_zero (l : List Nat) :
    beBytesToNat (l.dropWhile (· == 0)) = beBytesToNat l := by
  induction l with
  | nil => rfl
  | cons b t ih =>
    by_cases hb : b = 0
    · subst hb
      rw [show ((0 : Nat) :: t).dropWhile (· == 0) = t.dropWhile (· == 0) from by
        simp [List.dropWhile], ih, beBytesToNat_cons_zero]
    · have hbf : (b == 0) = false := by simpa using hb
      rw [show (b :: t).dropWhile (· == 0) = b :: t from by
        simp [List.dropWhile, hbf]]

theorem natToBEBytesAux_value (fuel n : Nat) (hn : n ≤ fuel) :
    beBytesToNat (natToBEBytesAux fuel n) = n := by
  induction fuel generalizing n with
  | zero =>
    obtain rfl : n = 0 := Nat.le_zero.mp hn
    rfl
  | succ fuel ih =>
    by_cases h0 : n = 0
    · subst h0; rfl
    · have hrec : n / 256 ≤ fuel := by
        have : n / 256 < n := Nat.div_lt_self (Nat.pos_of_ne_zero h0) (by omega)
        omega
      rw [show natToBEBytesAux (fuel + 1) n
            = natToBEBytesAux fuel (n / 256) ++ [n % 256] from by
          simp [natToBEBytesAux, h0]]
      rw [beBytesToNat_append_single, ih (n / 256) hrec]
      omega

theorem natToBEBytes_value (n : Nat) : beBytesToNat (natToBEBytes n) = n :=
  natToBEBytesAux_value n n le_rfl

theorem natToBEBytesAux_length (fuel n k : Nat) (hn : n ≤ fuel)
    (hk : n < 256 ^ k) : (natToBEBytesAux fuel n).length ≤ k := by
  induction fuel generalizing n k with
  | zero =>
    obtain rfl : n = 0 := Nat.le_zero.mp hn
    simp [natToBEBytesAux]
  | succ fuel ih =>
    by_cases h0 : n = 0
    · subst h0; simp [natToBEBytesAux]
    · have hrec : n / 256 ≤ fuel := by
        have : n / 256 < n := Nat.div_lt_self (Nat.pos_of_ne_zero h0) (by omega)
        omega
      rw [show natToBEBytesAux (fuel + 1) n
            = natToBEBytesAux fuel (n / 256) ++ [n % 256] from by
          simp [natToBEBytesAux, h0]]
      cases k with
      | zero =>
        have := Nat.pos_of_ne_zero h0
        simp only [pow_zero] at hk
        omega
      | succ k =>
        have hk' : n / 256 < 256 ^ k := by
          rw [pow_succ] at hk
          omega
        have := ih (n / 256) k hrec hk'
        simp only [List.length_append, List.length_cons, List.length_nil]
        omega

theorem natToBEBytes_length (n k : Nat) (hk : n < 256 ^ k) :
    (natToBEBytes n).length ≤ k :=
  natToBEBytesAux_length n n k le_rfl hk

theorem natToBEBytes_length_pos {n : Nat} (h : n ≠ 0) :
    0 < (natToBEBytes n).length := by
  cases n with
  | zero => exact absurd rfl h
  | succ m =>
    rw [show natToBEBytes (m + 1)
          = natToBEBytesAux m ((m + 1) / 256) ++ [(m + 1) % 256] from by
        simp [natToBEBytes, natToBEBytesAux]]
    simp

theorem two_pow_128_eq : (2 : Nat) ^ 128 = 256 ^ 16 := by norm_num

theorem ToFixedSizeBytes_ok (u : Int) (h0 : 0 ≤ u) (h1 : u < 2 ^ 128) :
    ToFixedSizeBytes u
      = .ok (List.replicate (16 - (natToBEBytes u.natAbs).length) 0
              ++ natToBEBytes u.natAbs) := by
  have hlen : (natToBEBytes u.natAbs).length ≤ 16 :=
    natToBEBytes_length _ 16 (by rw [← two_pow_128_eq]; exact natAbs_lt_two_pow_128 h0 h1)
  unfold ToFixedSizeBytes
  rw [Validate_ok h0 h1]
  simp only [Uint128Bytes]
  by_cases hz : (natToBEBytes u.natAbs).length = 0
  · rw [if_pos hz]
    rw [List.length_eq_zero.mp hz]
    simp
  · rw [if_neg hz, if_pos (by omega)]
    have htake : 16 - (16 - (natToBEBytes u.natAbs).length)
        = (natToBEBytes u.natAbs).length := by omega
    rw [htake, List.take_length]

theorem ToFixedSizeBytes_ok_length (u : Int) (h0 : 0 ≤ u) (h1 : u < 2 ^ 128) :
    (List.replicate (16 - (natToBEBytes u.natAbs).length) 0
      ++ natToBEBytes u.natAbs).length = 16 := by
  have hlen : (natToBEBytes u.natAbs).length ≤ 16 :=
    natToBEBytes_length _ 16 (by rw [← two_pow_128_eq]; exact natAbs_lt_two_pow_128 h0 h1)
  simp only [List.length_append, List.length_replicate]
  omega

theorem FromFixedSizeByteSlice_ok (l : List Nat) (h : l.length = 16) :
    FromFixedSizeByteSlice l = .ok (beBytesToNat l) := by
  unfold FromFixedSizeByteSlice
  rw [if_neg (by simp [Uint128Bytes, h])]
  by_cases hr : 0 < (l.dropWhile (· == 0)).length
  · rw [if_pos hr, beBytesToNat_dropWhile_zero]
  · rw [if_neg hr]
    have : l.dropWhile (· == 0) = [] := by
      cases hcase : l.dropWhile (· == 0) with
      | nil => rfl
      | cons a t => rw [hcase] at hr; simp at hr
    have hv : beBytesToNat l = 0 := by
      rw [← beBytesToNat_dropWhile_zero, this]; rfl
    simp [hv]

end ByteLemmas

/-- A concrete `[16]byte` array holding 16 zero bytes. -/
def zeroBytes16 : Bytes16 := ⟨List.replicate 16 0, by simp⟩

/-- C1: for every value v with 0 ≤ v ≤ 2^128−1, `ToFixedSizeBytes v` succeeds
and yields exactly 16 bytes, and `FromFixedSizeByteSlice` applied to those 16
bytes succeeds and yields a value equal to v (decode ∘ encode is the identity
on the valid range). -/
theorem C1_bytes_roundtrip (v : Int) (h0 : 0 ≤ v) (h1 : v < 2 ^ 128) :
    ∃ bs, ToFixedSizeBytes v = .ok bs ∧ bs.length = 16 ∧
      FromFixedSizeByteSlice bs = .ok v := by
  refine ⟨_, ToFixedSizeBytes_ok v h0 h1, ToFixedSizeBytes_ok_length v h0 h1, ?_⟩
  rw [FromFixedSizeByteSlice_ok _ (ToFixedSizeBytes_ok_length v h0 h1)]
  rw [beBytesToNat_replicate_zero, natToBEBytes_value]
  congr 1
  omega

theorem C1_witness :
    (0 : Int) ≤ 258 ∧ (258 : Int) < 2 ^ 128 ∧
    ∃ bs, ToFixedSizeBytes 258 = .ok bs ∧ bs.length = 16 ∧
      FromFixedSizeByteSlice bs = .ok 258 :=
  ⟨by norm_num, by norm_num, C1_bytes_roundtrip 258 (by norm_num) (by norm_num)⟩

/-- C2: `ToFixedSizeBytes` validates its receiver first — Underflow for a
negative value, Overflow above 2^128−1, with no encoding produced — and
otherwise returns the unique 16-byte big-endian encoding, zero-padded on the
left (so encoding is injective on the valid range, and 0 encodes as 16 zero
bytes). -/
theorem C2_encode_validates (v : Int) :
    (v < 0 → ToFixedSizeBytes v = .error .underflow) ∧
    ((2 : Int) ^ 128 ≤ v → ToFixedSizeBytes v = .error .overflow) ∧
    (0 ≤ v → v < 2 ^ 128 →
      (ToFixedSizeBytes v
        = .ok (List.replicate (16 - (natToBEBytes v.natAbs).length) 0
                ++ natToBEBytes v.natAbs)) ∧
      (∀ bs, ToFixedSizeBytes v = .ok bs →
        bs.length = 16 ∧ (beBytesToNat bs : Int) = v) ∧
      (∀ w : Int, 0 ≤ w → w < 2 ^ 128 →
        ToFixedSizeBytes v = ToFixedSizeBytes w → v = w)) ∧
    ToFixedSizeBytes 0 = .ok (List.replicate 16 0) := by
  refine ⟨?_, ?_, ?_, by rfl⟩
  · intro h
    unfold ToFixedSizeBytes
    rw [Validate_neg h]
  · intro h
    unfold ToFixedSizeBytes
    rw [Validate_big h]
  · intro h0 h1
    refine ⟨ToFixedSizeBytes_ok v h0 h1, ?_, ?_⟩
    · intro bs hbs
      rw [ToFixedSizeBytes_ok v h0 h1] at hbs
      cases hbs
      refine ⟨ToFixedSizeBytes_ok_length v h0 h1, ?_⟩
      rw [beBytesToNat_replicate_zero, natToBEBytes_value]
      omega
    · intro w hw0 hw1 heq
      rw [ToFixedSizeBytes_ok v h0 h1, ToFixedSizeBytes_ok w hw0 hw1] at heq
      have hlist := Except.ok.inj heq
      have := congrArg beBytesToNat hlist
      rw [beBytesToNat_replicate_zero, beBytesToNat_replicate_zero,
        natToBEBytes_value, natToBEBytes_value] at this
      omega

theorem C2_witness :
    ToFixedSizeBytes (-1) = .error .underflow ∧
    ToFixedSizeBytes ((2 : Int) ^ 128) = .error .overflow ∧
    ToFixedSizeBytes 258 = .ok (List.replicate 14 0 ++ [1, 2]) := by
  refine ⟨(C2_encode_validates (-1)).1 (by norm_num),
    (C2_encode_validates (2 ^ 128)).2.1 (by norm_num), ?_⟩
  have h := ((C2_encode_validates 258).2.2.1 (by norm_num) (by norm_num)).1
  rw [h]
  rfl

/-- C3: `FromFixedSizeByteSlice` fails with InvalidBytesSize iff the input
length is not exactly 16; every 16-byte input decodes to its big-endian
value (all zeros decode to 0), and the `[16]byte` entry points
`FromFixedSizeBytes` and `NewUint128FromFixedSizeBytes` never fail. -/
theorem C3_decode_spec (bytes : List Nat) (b16 : Bytes16) :
    (bytes.length ≠ 16 → FromFixedSizeByteSlice bytes = .error .invalidBytesSize) ∧
    (bytes.length = 16 → FromFixedSizeByteSlice bytes = .ok (beBytesToNat bytes)) ∧
    FromFixedSizeByteSlice (List.replicate 16 0) = .ok 0 ∧
    (∀ u : Int, FromFixedSizeBytes u b16 = (beBytesToNat b16.data : Int)) ∧
    NewUint128FromFixedSizeBytes b16 = (beBytesToNat b16.data : Int) := by
  have hentry : ∀ u : Int, FromFixedSizeBytes u b16 = (beBytesToNat b16.data : Int) := by
    intro u
    unfold FromFixedSizeBytes
    rw [FromFixedSizeByteSlice_ok b16.data b16.size_eq]
  refine ⟨?_, fun h => FromFixedSizeByteSlice_ok bytes h, by rfl, hentry, hentry NewUint128⟩
  intro h
  unfold FromFixedSizeByteSlice
  rw [if_pos (by simpa [Uint128Bytes] using h)]

theorem C3_witness :
    FromFixedSizeByteSlice (List.replicate 15 0) = .error .invalidBytesSize ∧
    FromFixedSizeByteSlice (List.replicate 17 0) = .error .invalidBytesSize ∧
    NewUint128FromFixedSizeBytes zeroBytes16 = 0 := by
  refine ⟨(C3_decode_spec (List.replicate 15 0) zeroBytes16).1 (by simp),
    (C3_decode_spec (List.replicate 17 0) zeroBytes16).1 (by simp), ?_⟩
  rw [(C3_decode_spec [] zeroBytes16).2.2.2.2]
  rfl

/-- C4 counterexample: at v = −2^200 the bit length of the wrapped integer
(taken of the absolute value, as Go's `BitLen` does) exceeds 128, yet
`Validate` returns Underflow, not Overflow — refuting the clause "Overflow
for any value with bit-length greater than 128" on negative values. -/
theorem C4_counterexample :
    128 < bitLen (Int.natAbs (-(2 : Int) ^ 200)) ∧
    Validate (-(2 : Int) ^ 200) = some .underflow ∧
    Validate (-(2 : Int) ^ 200) ≠ some .overflow := by
  refine ⟨by decide, by rfl, ?_⟩
  intro h
  rw [show Validate (-(2 : Int) ^ 200) = some .underflow from by rfl] at h
  cases h

/-- C4 (amended): `Validate` returns no error iff the wrapped integer is
non-negative with bit-length at most 128; it returns Underflow for any
negative value and Overflow for any *non-negative* value of bit-length
greater than 128 (for negative values the sign is checked first).
`NewUint128FromBigInt` rejects −1 with Underflow and 2^128 with Overflow,
and accepts 2^128 − 1. -/
theorem C4_validate_spec (v : Int) :
    (Validate v = none ↔ 0 ≤ v ∧ bitLen v.natAbs ≤ 128) ∧
    (v < 0 → Validate v = some .underflow) ∧
    (0 ≤ v → 128 < bitLen v.natAbs → Validate v = some .overflow) ∧
    NewUint128FromBigInt (-1) = .error .underflow ∧
    NewUint128FromBigInt (2 ^ 128) = .error .overflow ∧
    NewUint128FromBigInt (2 ^ 128 - 1) = .ok (2 ^ 128 - 1) := by
  refine ⟨?_, fun h => Validate_neg h, ?_, by rfl, by rfl, by rfl⟩
  · rw [Validate_eq_none]
    have := bitLen_le v.natAbs 128
    have h2 : ((2 ^ 128 : Nat) : Int) = (2 ^ 128 : Int) := by push_cast
    constructor
    · intro ⟨h0, h1⟩
      exact ⟨h0, this.mpr (natAbs_lt_two_pow_128 h0 h1)⟩
    · intro ⟨h0, h1⟩
      exact ⟨h0, by have := this.mp h1; omega⟩
  · intro h0 hbig
    unfold Validate
    rw [if_neg (by omega), if_pos (by simp only [Uint128Bits]; omega)]

/-- `(u *Uint128) Add(x)`: exact sum into a freshly allocated value
(`NewUint128().Int.Add(u.Int, x.Int)`), then `Validate`; the error is
returned with no value on failure. -/
def Add (u x : Int) : Except Uint128Error Int :=
  match Validate (u + x) with
  | some e => .error e
  | none => .ok (u + x)

/-- `(u *Uint128) Sub(x)`: exact difference, then `Validate`. -/
def Sub (u x : Int) : Except Uint128Error Int :=
  match Validate (u - x) with
  | some e => .error e
  | none => .ok (u - x)

/-- `(u *Uint128) Mul(x)`: exact product, then `Validate`. -/
def Mul (u x : Int) : Except Uint128Error Int :=
  match Validate (u * x) with
  | some e => .error e
  | none => .ok (u * x)

/-- `(u *Uint128) Div(x)`: `big.Int.Div` (Euclidean division, which agrees
with truncation toward zero on non-negative operands) into a fresh value,
then `Validate`.  `big.Int.Div` panics on a zero divisor; that aborted
execution is modelled as `none`. -/
def Div (u x : Int) : Option (Except Uint128Error Int) :=
  if x = 0 then none
  else
    some (match Validate (Int.ediv u x) with
      | some e => .error e
      | none => .ok (Int.ediv u x))

/-- `big.Int.Exp(x, y, nil)`: exact `x^y` with no modular reduction for
`y ≥ 0`; by Go's documented convention the result is 1 when `y < 0` and the
modulus is nil. -/
def bigExp (x y : Int) : Int := if y < 0 then 1 else x ^ y.toNat

/-- `(u *Uint128) Exp(x)`: `big.Int.Exp(u, x, nil)` into a fresh value, then
`Validate`. -/
def Exp (u x : Int) : Except Uint128Error Int :=
  match Validate (bigExp u x) with
  | some e => .error e
  | none => .ok (bigExp u x)

/-- C5: on valid operands, `Add`, `Sub`, `Mul` compute the exact unbounded
result and range-check it: `Sub` fails with Underflow exactly when u < x,
`Add`/`Mul` fail with Overflow exactly when the exact result is ≥ 2^128, and
otherwise the returned value is the exact mathematical result. -/
theorem C5_arith_exact (u x : Int) (hu0 : 0 ≤ u) (hu1 : u < 2 ^ 128)
    (hx0 : 0 ≤ x) (hx1 : x < 2 ^ 128) :
    (x ≤ u → Sub u x = .ok (u - x)) ∧
    (u < x → Sub u x = .error .underflow) ∧
    (u + x < 2 ^ 128 → Add u x = .ok (u + x)) ∧
    ((2 : Int) ^ 128 ≤ u + x → Add u x = .error .overflow) ∧
    (u * x < 2 ^ 128 → Mul u x = .ok (u * x)) ∧
    ((2 : Int) ^ 128 ≤ u * x → Mul u x = .error .overflow) := by
  refine ⟨?_, ?_, ?_, ?_, ?_, ?_⟩ <;> intro h
  · unfold Sub
    rw [Validate_ok (by omega) (by omega)]
  · unfold Sub
    rw [Validate_neg (by omega)]
  · unfold Add
    rw [Validate_ok (by omega) h]
  · unfold Add
    rw [Validate_big h]
  · unfold Mul
    rw [Validate_ok (mul_nonneg hu0 hx0) h]
  · unfold Mul
    rw [Validate_big h]

theorem C5_witness :
    Add (2 ^ 128 - 1) 1 = .error .overflow ∧
    Sub 0 1 = .error .underflow ∧
    Mul (2 ^ 64) (2 ^ 64) = .error .overflow ∧
    Add 3 4 = .ok 7 ∧ Sub 7 3 = .ok 4 ∧ Mul 6 7 = .ok 42 := by
  have h1 := C5_arith_exact (2 ^ 128 - 1) 1 (by norm_num) (by norm_num)
    (by norm_num) (by norm_num)
  have h2 := C5_arith_exact 0 1 (by norm_num) (by norm_num) (by norm_num) (by norm_num)
  have h3 := C5_arith_exact (2 ^ 64) (2 ^ 64) (by norm_num) (by norm_num)
    (by norm_num) (by norm_num)
  have h4 := C5_arith_exact 3 4 (by norm_num) (by norm_num) (by norm_num) (by norm_num)
  have h5 := C5_arith_exact 7 3 (by norm_num) (by norm_num) (by norm_num) (by norm_num)
  have h6 := C5_arith_exact 6 7 (by norm_num) (by norm_num) (by norm_num) (by norm_num)
  refine ⟨h1.2.2.2.1 (by norm_num), h2.2.1 (by norm_num), h3.2.2.2.2.2 (by norm_num),
    ?_, ?_, ?_⟩
  · rw [h4.2.2.1 (by norm_num)]
    norm_num
  · rw [h5.1 (by norm_num)]
    norm_num
  · rw [h6.2.2.2.2.1 (by norm_num)]
    norm_num

/-- C6: on valid operands with a non-zero divisor, `Div` succeeds (no panic,
no range error) and returns the integer quotient truncated toward zero,
i.e. the natural-number quotient of the two values. -/
theorem C6_div_trunc (u x : Int) (hu0 : 0 ≤ u) (hu1 : u < 2 ^ 128)
    (hx0 : 0 ≤ x) (hx1 : x < 2 ^ 128) (hxz : x ≠ 0) :
    Div u x = some (.ok ((u.toNat / x.toNat : Nat) : Int)) := by
  unfold Div
  rw [if_neg hxz]
  have hnn : 0 ≤ Int.ediv u x := Int.ediv_nonneg hu0 hx0
  have hle : Int.ediv u x ≤ u := Int.ediv_le_self x hu0
  rw [Validate_ok hnn (by omega)]
  have hcast : ((u.toNat / x.toNat : Nat) : Int) = Int.ediv u x := by
    rw [Int.ofNat_ediv, Int.toNat_of_nonneg hu0, Int.toNat_of_nonneg hx0]
    rfl
  rw [hcast]

theorem C6_witness : Div 10 3 = some (.ok 3) := by
  rw [C6_div_trunc 10 3 (by norm_num) (by norm_num) (by norm_num) (by norm_num)
    (by norm_num)]
  norm_num

/-- C7: on valid operands, `Exp` computes the exact power u^x with no
modular reduction and range-checks it: the exact value is returned when it
is below 2^128, and Overflow is reported when it is ≥ 2^128. -/
theorem C7_exp_exact (u x : Int) (hu0 : 0 ≤ u) (hu1 : u < 2 ^ 128)
    (hx0 : 0 ≤ x) (hx1 : x < 2 ^ 128) :
    (u ^ x.toNat < 2 ^ 128 → Exp u x = .ok (u ^ x.toNat)) ∧
    ((2 : Int) ^ 128 ≤ u ^ x.toNat → Exp u x = .error .overflow) := by
  have hexp : bigExp u x = u ^ x.toNat := by
    unfold bigExp
    rw [if_neg (by omega)]
  constructor <;> intro h
  · unfold Exp
    rw [hexp, Validate_ok (pow_nonneg hu0 _) h]
  · unfold Exp
    rw [hexp, Validate_big h]

theorem C7_witness :
    Exp 2 127 = .ok (2 ^ 127) ∧ Exp 2 128 = .error .overflow := by
  have h1 := (C7_exp_exact 2 127 (by norm_num) (by norm_num) (by norm_num)
    (by norm_num)).1 (by decide)
  have h2 := (C7_exp_exact 2 128 (by norm_num) (by norm_num) (by norm_num)
    (by norm_num)).2 (by decide)
  refine ⟨?_, h2⟩
  rw [h1]
  congr 1

/-- Fuel-driven helper for `natToDecDigits`: the big-endian decimal digit
characters of `n` (empty for 0).  The fuel is an upper bound on `n`. -/
def natToDecDigitsAux : Nat → Nat → List Char
  | 0, _ => []
  | fuel + 1, n =>
    if n = 0 then []
    else natToDecDigitsAux fuel (n / 10) ++ [Char.ofNat (48 + n % 10)]

/-- The decimal digit characters of `n`, big-endian, empty for 0. -/
def natToDecDigits (n : Nat) : List Char := natToDecDigitsAux n n

/-- `big.Int.Text(10)`: decimal representation with a `-` sign for negative
values, `"0"` for zero, and no leading zeros. -/
def bigText10 (v : Int) : String :=
  if v < 0 then String.mk ('-' :: natToDecDigits v.natAbs)
  else if v = 0 then "0"
  else String.mk (natToDecDigits v.natAbs)

/-- `(u *Uint128) String()`: `u.Text(10)`. -/
def StringOf (u : Int) : String := bigText10 u

/-- The numeric value of a decimal digit character, `none` for any other
character. -/
def charDigit (c : Char) : Option Nat :=
  if 48 ≤ c.toNat ∧ c.toNat ≤ 57 then some (c.toNat - 48) else none

/-- Accumulating decimal scan: consumes the whole character list, failing on
the first non-digit. -/
def parseDigitsAux : Nat → List Char → Option Nat
  | acc, [] => some acc
  | acc, c :: cs =>
    match charDigit c with
    | some d => parseDigitsAux (acc * 10 + d) cs
    | none => none

/-- `big.Int.SetString(str, 10)`: an optional leading `+`/`-` sign followed
by at least one decimal digit, consuming the whole string; anything else
fails. -/
def setStringDec (s : String) : Option Int :=
  match s.data with
  | [] => none
  | c :: cs =>
    if c = '-' then
      if cs.isEmpty then none
      else (parseDigitsAux 0 cs).map (fun n => -(n : Int))
    else if c = '+' then
      if cs.isEmpty then none
      else (parseDigitsAux 0 cs).map (fun n => (n : Int))
    else (parseDigitsAux 0 (c :: cs)).map (fun n => (n : Int))

/-- `NewUint128FromString`: `big.Int.SetString(str, 10)`, failing with
`ErrUint128InvalidString` when the parse fails, then `Validate`. -/
def NewUint128FromString (str : String) : Except Uint128Error Int :=
  match setStringDec str with
  | none => .error .invalidString
  | some v =>
    match Validate v with
    | some e => .error e
    | none => .ok v

section StringLemmas

theorem digitChar_spec (d : Nat) (hd : d < 10) :
    (Char.ofNat (48 + d)).toNat = 48 + d ∧
    charDigit (Char.ofNat (48 + d)) = some d ∧
    Char.ofNat (48 + d) ≠ '-' ∧ Char.ofNat (48 + d) ≠ '+' ∧
    (d ≠ 0 → Char.ofNat (48 + d) ≠ '0') := by
  interval_cases d <;>
    exact ⟨by decide, by decide, by decide, by decide, by decide⟩

theorem parseDigitsAux_append (acc : Nat) (l1 l2 : List Char) :
    parseDigitsAux acc (l1 ++ l2)
      = match parseDigitsAux acc l1 with
        | some a => parseDigitsAux a l2
        | none => none := by
  induction l1 generalizing acc with
  | nil => rfl
  | cons c cs ih =>
    rw [List.cons_append]
    cases h : charDigit c with
    | some d => simp [parseDigitsAux, h, ih]
    | none => simp [parseDigitsAux, h]

theorem natToDecDigitsAux_zero (fuel : Nat) : natToDecDigitsAux fuel 0 = [] := by
  cases fuel <;> rfl

theorem parseDigitsAux_decDigits (fuel n acc : Nat) (hn : n ≤ fuel) :
    parseDigitsAux acc (natToDecDigitsAux fuel n)
      = some (acc * 10 ^ (natToDecDigitsAux fuel n).length + n) := by
  induction fuel generalizing n acc with
  | zero =>
    obtain rfl : n = 0 := Nat.le_zero.mp hn
    simp [natToDecDigitsAux, parseDigitsAux]
  | succ fuel ih =>
    by_cases h0 : n = 0
    · subst h0
      simp [natToDecDigitsAux, parseDigitsAux]
    · have hrec : n / 10 ≤ fuel := by
        have : n / 10 < n := Nat.div_lt_self (Nat.pos_of_ne_zero h0) (by omega)
        omega
      rw [show natToDecDigitsAux (fuel + 1) n
            = natToDecDigitsAux fuel (n / 10) ++ [Char.ofNat (48 + n % 10)] from by
          simp [natToDecDigitsAux, h0]]
      rw [parseDigitsAux_append, ih (n / 10) acc hrec]
      have hdig : charDigit (Char.ofNat (48 + n % 10)) = some (n % 10) :=
        (digitChar_spec (n % 10) (by omega)).2.1
      simp only [parseDigitsAux, hdig, List.length_append, List.length_cons,
        List.length_nil, List.length_singleton]
      congr 1
      have hmod : n / 10 * 10 + n % 10 = n := by omega
      calc (acc * 10 ^ (natToDecDigitsAux fuel (n / 10)).length + n / 10) * 10 + n % 10
          = acc * (10 ^ (natToDecDigitsAux fuel (n / 10)).length * 10)
              + (n / 10 * 10 + n % 10) := by ring
        _ = acc * 10 ^ ((natToDecDigitsAux fuel (n / 10)).length + 1) + n := by
            rw [hmod, pow_succ]

theorem natToDecDigitsAux_head (fuel n : Nat) (hn : n ≤ fuel) (h0 : n ≠ 0) :
    ∃ d ds, natToDecDigitsAux fuel n = Char.ofNat (48 + d) :: ds ∧
      1 ≤ d ∧ d ≤ 9 := by
  induction fuel generalizing n with
  | zero => omega
  | succ fuel ih =>
    rw [show natToDecDigitsAux (fuel + 1) n
          = natToDecDigitsAux fuel (n / 10) ++ [Char.ofNat (48 + n % 10)] from by
        simp [natToDecDigitsAux, h0]]
    by_cases h10 : n < 10
    · have hq : n / 10 = 0 := by omega
      rw [hq, natToDecDigitsAux_zero, List.nil_append]
      exact ⟨n, [], by rw [Nat.mod_eq_of_lt h10], by omega, by omega⟩
    · obtain ⟨d, ds, hds, hd1, hd9⟩ := ih (n / 10)
        (by have : n / 10 < n := Nat.div_lt_self (by omega) (by omega); omega)
        (by omega)
      exact ⟨d, ds ++ [Char.ofNat (48 + n % 10)], by rw [hds]; rfl, hd1, hd9⟩

theorem setStringDec_cons (c : Char) (l : List Char) :
    setStringDec (String.mk (c :: l))
      = (if c = '-' then
          (if l.isEmpty then none
            else (parseDigitsAux 0 l).map (fun n => -(n : Int)))
        else if c = '+' then
          (if l.isEmpty then none
            else (parseDigitsAux 0 l).map (fun n => (n : Int)))
        else (parseDigitsAux 0 (c :: l)).map (fun n => (n : Int))) := rfl

end StringLemmas

/-- C8: `String` produces the canonical base-10 representation — `String 0`
is `"0"`, and a nonzero value's representation starts with a nonzero digit
(in particular no sign and no leading zero) — and `NewUint128FromString`
parses it back to an equal value. -/
theorem C8_string_roundtrip (v : Int) (h0 : 0 ≤ v) (h1 : v < 2 ^ 128) :
    StringOf 0 = "0" ∧
    (v ≠ 0 → ∃ d ds, (StringOf v).data = Char.ofNat (48 + d) :: ds ∧
      1 ≤ d ∧ d ≤ 9) ∧
    NewUint128FromString (StringOf v) = .ok v := by
  by_cases hz : v = 0
  · subst hz
    refine ⟨rfl, fun h => absurd rfl h, by rfl⟩
  · have hna : v.natAbs ≠ 0 := by omega
    have hst : StringOf v = String.mk (natToDecDigits v.natAbs) := by
      unfold StringOf bigText10
      rw [if_neg (by omega), if_neg hz]
    obtain ⟨d, ds, hds, hd1, hd9⟩ :=
      natToDecDigitsAux_head v.natAbs v.natAbs le_rfl hna
    have hspec := digitChar_spec d (by omega)
    have hparse : parseDigitsAux 0 (natToDecDigits v.natAbs) = some v.natAbs := by
      rw [show natToDecDigits v.natAbs = natToDecDigitsAux v.natAbs v.natAbs from rfl,
        parseDigitsAux_decDigits v.natAbs v.natAbs 0 le_rfl]
      simp
    have hsd : setStringDec (String.mk (natToDecDigits v.natAbs))
        = some ((v.natAbs : Nat) : Int) := by
      rw [show natToDecDigits v.natAbs = Char.ofNat (48 + d) :: ds from hds,
        setStringDec_cons, if_neg hspec.2.2.1, if_neg hspec.2.2.2.1, ← hds]
      rw [show natToDecDigits v.natAbs = natToDecDigitsAux v.natAbs v.natAbs from rfl]
        at hparse
      rw [hparse]
      rfl
    refine ⟨rfl, fun _ => ⟨d, ds, by rw [hst]; exact hds, hd1, hd9⟩, ?_⟩
    unfold NewUint128FromString
    rw [hst, hsd]
    have hcast : ((v.natAbs : Nat) : Int) = v := Int.natAbs_of_nonneg h0
    rw [hcast]
    simp only [Validate_ok h0 h1]

theorem C8_witness :
    StringOf 0 = "0" ∧ StringOf 120 = "120" ∧
    NewUint128FromString (StringOf 120) = .ok 120 := by
  have h := C8_string_roundtrip 120 (by norm_num) (by norm_num)
  exact ⟨h.1, by decide, h.2.2⟩

theorem C4_witness :
    Validate (-5) = some .underflow ∧
    Validate ((2 : Int) ^ 129) = some .overflow := by
  refine ⟨(C4_validate_spec (-5)).2.1 (by norm_num),
    (C4_validate_spec (2 ^ 129)).2.2.1 (by norm_num) (by decide)⟩

/-- A heap of `big.Int` cells: Go pointers are modelled as indices into
`mem`.  Only the numeric contents of the cells matter. -/
structure Store where
  mem : List Int

/-- Dereference a pointer (0 for a dangling index, which the modelled
programs never produce). -/
def read (s : Store) (p : Nat) : Int := s.mem.getD p 0

/-- Overwrite one heap cell, as `big.Int` setters do on their receiver. -/
def write (s : Store) (p : Nat) (v : Int) : Store := ⟨s.mem.set p v⟩

/-- Allocate a fresh cell (`NewUint128()` and the like), returning the new
store and the fresh pointer. -/
def alloc (s : Store) (v : Int) : Store × Nat := (⟨s.mem ++ [v]⟩, s.mem.length)

/-- Common shape of the five arithmetic methods at heap level:
`obj := &Uint128{NewUint128().Int.Op(u.Int, x.Int)}` allocates a fresh cell,
stores `f u x` into it, and validates it; on error Go returns `nil, err`
(no pointer), on success the fresh pointer. -/
def binOpHeap (f : Int → Int → Int) (s : Store) (pu px : Nat) :
    Store × Option Nat :=
  let a := alloc s 0
  let s2 := write a.1 a.2 (f (read a.1 pu) (read a.1 px))
  match Validate (read s2 a.2) with
  | some _ => (s2, none)
  | none => (s2, some a.2)

/-- `(u *Uint128) Add(x)` at heap level. -/
def AddH (s : Store) (pu px : Nat) : Store × Option Nat :=
  binOpHeap (fun a b => a + b) s pu px

/-- `(u *Uint128) Sub(x)` at heap level. -/
def SubH (s : Store) (pu px : Nat) : Store × Option Nat :=
  binOpHeap (fun a b => a - b) s pu px

/-- `(u *Uint128) Mul(x)` at heap level. -/
def MulH (s : Store) (pu px : Nat) : Store × Option Nat :=
  binOpHeap (fun a b => a * b) s pu px

/-- `(u *Uint128) Exp(x)` at heap level. -/
def ExpH (s : Store) (pu px : Nat) : Store × Option Nat :=
  binOpHeap bigExp s pu px

/-- `(u *Uint128) Div(x)` at heap level; `none` models the zero-divisor
panic of `big.Int.Div`. -/
def DivH (s : Store) (pu px : Nat) : Option (Store × Option Nat) :=
  if read s px = 0 then none
  else some (binOpHeap (fun a b => Int.ediv a b) s pu px)

/-- `FromFixedSizeByteSlice` at heap level: the length check precedes any
write to the receiver cell. -/
def FromFixedSizeByteSliceH (s : Store) (p : Nat) (bytes : List Nat) :
    Store × Option Uint128Error :=
  if bytes.length ≠ Uint128Bytes then (s, some .invalidBytesSize)
  else
    let rest := bytes.dropWhile (· == 0)
    if 0 < rest.length then (write s p (beBytesToNat rest), none)
    else (write s p 0, none)

section HeapLemmas

theorem read_alloc_lt (s : Store) (v : Int) (p : Nat) (hp : p < s.mem.length) :
    read ⟨s.mem ++ [v]⟩ p = read s p := by
  unfold read
  rw [List.getD_eq_getElem?_getD, List.getD_eq_getElem?_getD,
    List.getElem?_append_left hp]

theorem read_write_fresh (s : Store) (v w : Int) (p : Nat)
    (hp : p < s.mem.length) :
    read (write ⟨s.mem ++ [v]⟩ s.mem.length w) p = read s p := by
  unfold write read
  rw [List.getD_eq_getElem?_getD, List.getElem?_set_ne (by omega),
    ← List.getD_eq_getElem?_getD]
  exact read_alloc_lt s v p hp

theorem binOpHeap_spec (f : Int → Int → Int) (s : Store) (pu px : Nat)
    (hu : pu < s.mem.length) (hx : px < s.mem.length) :
    read (binOpHeap f s pu px).1 pu = read s pu ∧
    read (binOpHeap f s pu px).1 px = read s px ∧
    (∀ z, (binOpHeap f s pu px).2 = some z → z ≠ pu ∧ z ≠ px) := by
  simp only [binOpHeap, alloc]
  split
  · exact ⟨read_write_fresh s 0 _ pu hu, read_write_fresh s 0 _ px hx,
      fun z hz => by cases hz⟩
  · refine ⟨read_write_fresh s 0 _ pu hu, read_write_fresh s 0 _ px hx,
      fun z hz => ?_⟩
    cases hz
    exact ⟨by omega, by omega⟩

end HeapLemmas

/-- C9: each arithmetic operation returns a freshly allocated instance — the
returned pointer (when the operation succeeds) differs from both operand
pointers — and the numeric values stored at the receiver and the operand are
unchanged after the call, whether it succeeds or returns an error (for `Div`,
whenever the divisor is non-zero so that the call returns at all). -/
theorem C9_ops_frame (s : Store) (pu px : Nat)
    (hu : pu < s.mem.length) (hx : px < s.mem.length) :
    (read (AddH s pu px).1 pu = read s pu ∧ read (AddH s pu px).1 px = read s px ∧
      (∀ z, (AddH s pu px).2 = some z → z ≠ pu ∧ z ≠ px)) ∧
    (read (SubH s pu px).1 pu = read s pu ∧ read (SubH s pu px).1 px = read s px ∧
      (∀ z, (SubH s pu px).2 = some z → z ≠ pu ∧ z ≠ px)) ∧
    (read (MulH s pu px).1 pu = read s pu ∧ read (MulH s pu px).1 px = read s px ∧
      (∀ z, (MulH s pu px).2 = some z → z ≠ pu ∧ z ≠ px)) ∧
    (read (ExpH s pu px).1 pu = read s pu ∧ read (ExpH s pu px).1 px = read s px ∧
      (∀ z, (ExpH s pu px).2 = some z → z ≠ pu ∧ z ≠ px)) ∧
    (read s px ≠ 0 →
      ∃ r, DivH s pu px = some r ∧
        read r.1 pu = read s pu ∧ read r.1 px = read s px ∧
        (∀ z, r.2 = some z → z ≠ pu ∧ z ≠ px)) := by
  refine ⟨binOpHeap_spec _ s pu px hu hx, binOpHeap_spec _ s pu px hu hx,
    binOpHeap_spec _ s pu px hu hx, binOpHeap_spec _ s pu px hu hx, fun hz => ?_⟩
  refine ⟨binOpHeap (fun a b => Int.ediv a b) s pu px, ?_,
    binOpHeap_spec _ s pu px hu hx⟩
  unfold DivH
  rw [if_neg hz]

theorem C9_witness :
    read (AddH ⟨[2, 3]⟩ 0 1).1 0 = 2 ∧ read (AddH ⟨[2, 3]⟩ 0 1).1 1 = 3 ∧
    read (SubH ⟨[2, 3]⟩ 0 1).1 0 = 2 := by
  have h := C9_ops_frame ⟨[2, 3]⟩ 0 1 (by simp) (by simp)
  refine ⟨?_, ?_, ?_⟩
  · rw [h.1.1]; rfl
  · rw [h.1.2.1]; rfl
  · rw [h.2.1.1]; rfl

/-- C10: a failed decode never corrupts an existing value: when the byte
slice length is not 16, `FromFixedSizeByteSlice` returns `InvalidBytesSize`
before writing to the receiver, so the whole store — in particular the
receiver's cell — is unchanged. -/
theorem C10_decode_no_corrupt (s : Store) (p : Nat) (bytes : List Nat)
    (h : bytes.length ≠ 16) :
    FromFixedSizeByteSliceH s p bytes = (s, some .invalidBytesSize) ∧
    read (FromFixedSizeByteSliceH s p bytes).1 p = read s p := by
  have heq : FromFixedSizeByteSliceH s p bytes = (s, some .invalidBytesSize) := by
    unfold FromFixedSizeByteSliceH
    rw [if_pos (by simpa [Uint128Bytes] using h)]
  exact ⟨heq, by rw [heq]⟩

theorem C10_witness :
    FromFixedSizeByteSliceH ⟨[5]⟩ 0 (List.replicate 15 0)
      = (⟨[5]⟩, some .invalidBytesSize) :=
  (C10_decode_no_corrupt ⟨[5]⟩ 0 (List.replicate 15 0) (by simp)).1

end Util
